import Mathlib

/-
  Verification of core behaviors of the encfs encrypting-overlay file system.

  The definitions below are shallow embeddings of functions from the
  repository sources:
    - MACFileIO.cpp   : locWithHeader, locWithoutHeader, readOneBlock
    - RawFileIO.cpp   : write (pwrite retry loop)
    - CipherFileIO.cpp: initHeader, writeHeader, setIV, readOneBlock guard
    - Context.cpp     : lookupNode, trackNode, renameNode
    - DirNode.cpp     : unlink, renameNode, genRenameList, rename
    - BlockFileIO.cpp : cacheReadOneBlock, cacheWriteOneBlock, read, write,
                        padFile  (over the in-memory base of MemFileIO.cpp /
                        MemBlockFileIO.cpp)
  Machine integers (fs_off_t, size_t, uint64_t) are modeled as Nat, with
  Int used where the source value can be negative (lastNonEmptyBlock).
  Bytes are Nat values; buffers are lists of bytes.  Fallible operations
  return Option or Except, and thrown exceptions are error results.
-/

namespace EncfsProof

/- ===== MACFileIO.cpp: offset translation helpers ===== -/

/- roundUpDivide from MACFileIO.cpp line 78: (numerator + denominator - 1) / denominator. -/
def roundUpDivide (numerator denominator : Nat) : Nat :=
  (numerator + denominator - 1) / denominator

/- locWithHeader from MACFileIO.cpp line 95: offset + blockNum * headerSize
   with blockNum = roundUpDivide offset (blockSize - headerSize). -/
def locWithHeader (offset blockSize headerSize : Nat) : Nat :=
  offset + roundUpDivide offset (blockSize - headerSize) * headerSize

/- locWithoutHeader from MACFileIO.cpp line 105: offset - blockNum * headerSize
   with blockNum = roundUpDivide offset blockSize. -/
def locWithoutHeader (offset blockSize headerSize : Nat) : Nat :=
  offset - roundUpDivide offset blockSize * headerSize

/- ===== RawFileIO.cpp: write retry loop ===== -/

/- Outcome of one pwrite call, as seen by RawFileIO::write. -/
inductive PwriteOutcome where
  | eintr : PwriteOutcome
  | fail (errnoVal : Nat) : PwriteOutcome
  | wrote (n : Nat) : PwriteOutcome

def eioErrno : Nat := 5

/- The retry loop of RawFileIO::write (RawFileIO.cpp lines 124-155), driven by
   a trace of pwrite outcomes.  State: remaining bytes, file offset, retrys.
   Returns none if the trace is exhausted while the loop would continue.
   An EINTR outcome is retried without decrementing retrys; a successful
   (possibly partial) write advances offset, shrinks bytes and consumes one
   retry; a non-EINTR failure throws its errno; when the loop exits with
   bytes remaining, an I/O error (EIO) is thrown. -/
def pwriteLoop : List PwriteOutcome → Nat → Nat → Nat → Option (Except Nat Unit)
  | _, 0, _, _ => some (Except.ok ())
  | tr, b + 1, off, r + 1 =>
    match tr with
    | [] => none
    | PwriteOutcome.eintr :: rest => pwriteLoop rest (b + 1) off (r + 1)
    | PwriteOutcome.fail e :: _ => some (Except.error e)
    | PwriteOutcome.wrote n :: rest => pwriteLoop rest (b + 1 - n) (off + n) r
  | _, _ + 1, _, 0 => some (Except.error eioErrno)

/- RawFileIO::write enters the loop with retrys = 10. -/
def rawWrite (tr : List PwriteOutcome) (dataLen offset : Nat) : Option (Except Nat Unit) :=
  pwriteLoop tr dataLen offset 10

/- ===== MACFileIO.cpp: readOneBlock ===== -/

/- The stored-vs-computed MAC comparison loop of MACFileIO::readOneBlock
   (lines 170-182): byte i of the stored header is compared with
   (mac >> 8*i) & 0xff; the scan stops at the first mismatch. -/
def macMismatchScan : Nat → List Nat → Bool
  | _, [] => false
  | mac, b :: rest => if mac % 256 = b then macMismatchScan (mac / 256) rest else true

/- skipBlock computation of MACFileIO::readOneBlock (lines 153-162):
   with allowHoles, an all-zero buffer is passed through unchecked;
   without it, verification is skipped only when macBytes == 0. -/
def skipBlockOf (allowHoles : Bool) (macBytes : Nat) (blk : List Nat) : Bool :=
  if allowHoles then blk.all (fun b => b == 0) else macBytes == 0

/- MACFileIO::readOneBlock (lines 133-194) given the bytes the base layer
   returned for the on-disk block (header bytes followed by data bytes).
   mac64 abstracts cipher->MAC_64.  Except.error models the thrown
   Error("MAC comparison failure"), surfaced to callers as EIO. -/
def macReadBlock (macBytes randBytes : Nat) (warnOnly allowHoles : Bool)
    (mac64 : List Nat → Nat) (blk : List Nat) : Except Unit (List Nat) :=
  let headerSize := macBytes + randBytes
  if headerSize < blk.length then
    if skipBlockOf allowHoles macBytes blk then Except.ok (blk.drop headerSize)
    else
      let mac := mac64 (blk.drop macBytes)
      if macMismatchScan mac (blk.take macBytes) then
        if warnOnly then Except.ok (blk.drop headerSize) else Except.error ()
      else Except.ok (blk.drop headerSize)
  else Except.ok []

/- ===== CipherFileIO.cpp: per-file IV header ===== -/

/- Base-layer interactions performed by CipherFileIO header routines. -/
inductive CfEvent where
  | readBase (off len : Nat) : CfEvent
  | writeBase (off : Nat) (data : List Nat) : CfEvent

/- The members of CipherFileIO relevant to header handling
   (CipherFileIO.cpp lines 43-62): perFileIV from config, externalIV and
   fileIV both starting at 0. -/
structure CfState where
  perFileIV : Bool
  externalIV : Nat
  fileIV : Nat

/- View of the underlying FileIO used by the header routines: its current
   size, its first 8 bytes, writability, and the successive outputs of
   cipher->pseudoRandomize (8 bytes each). -/
structure CfBase where
  rawSize : Nat
  hdrBytes : List Nat
  writable : Bool
  draws : List (List Nat)

/- headerLen is 8 when perFileIV else 0 (CipherFileIO.cpp line 54). -/
def cfHeaderLen (s : CfState) : Nat := if s.perFileIV then 8 else 0

/- The big-endian packing loop fileIV = (fileIV << 8) | data[i]
   (CipherFileIO.cpp lines 160-161 and 173-174). -/
def packBE (l : List Nat) : Nat := l.foldl (fun acc b => (acc <<< 8) ||| b) 0

/- The do-while of CipherFileIO::initHeader (lines 168-178): draw 8 random
   bytes, pack big-endian, repeat while the packed value is 0.  Returns the
   accepted draw together with its packed value; none when the supply of
   draws is exhausted (or pseudoRandomize failed). -/
def firstNonZeroDraw : List (List Nat) → Option (List Nat × Nat)
  | [] => none
  | d :: rest => if packBE d = 0 then firstNonZeroDraw rest else some (d, packBE d)

/- CipherFileIO::initHeader (lines 136-191).  enc and dec abstract
   cipher->streamEncode / streamDecode keyed by the given IV.  If the raw
   file already holds a header, it is read and decoded under externalIV and
   must be non-zero (rAssert); otherwise, for perFileIV, a fresh non-zero
   fileIV is drawn, encoded under externalIV and written at offset 0.
   none models a thrown error (failed rAssert or random generation). -/
def initHeader (enc dec : Nat → List Nat → List Nat) (b : CfBase) (s : CfState) :
    Option (CfState × List CfEvent) :=
  if cfHeaderLen s ≤ b.rawSize then
    if s.perFileIV then
      let iv := packBE (dec s.externalIV b.hdrBytes)
      if iv = 0 then none
      else some ({ s with fileIV := iv }, [CfEvent.readBase 0 8])
    else some (s, [CfEvent.readBase 0 8])
  else if s.perFileIV then
    match firstNonZeroDraw b.draws with
    | none => none
    | some (d, iv) =>
      some ({ s with fileIV := iv }, [CfEvent.writeBase 0 (enc s.externalIV d)])
  else some (s, [])

/- The serialization loop of CipherFileIO::writeHeader (lines 210-213):
   for i = headerLen-1 downto 0, buf[i] = fileIV & 0xff; fileIV >>= 8.
   It destructively shifts the fileIV member itself.  Returns the
   big-endian bytes together with the final value left in fileIV. -/
def serHeader : Nat → Nat → List Nat × Nat
  | 0, iv => ([], iv)
  | n + 1, iv =>
    let p := serHeader n (iv / 256)
    (p.1 ++ [iv % 256], p.2)

/- CipherFileIO::writeHeader (lines 193-227): refuse when the base is not
   writable; otherwise serialize fileIV big-endian (mutating the member),
   stream-encode under externalIV and write at offset 0. -/
def writeHeader (enc : Nat → List Nat → List Nat) (b : CfBase) (s : CfState) :
    Bool × CfState × List CfEvent :=
  if b.writable then
    if s.perFileIV then
      let p := serHeader 8 s.fileIV
      (true, { s with fileIV := p.2 }, [CfEvent.writeBase 0 (enc s.externalIV p.1)])
    else (true, s, [CfEvent.writeBase 0 []])
  else (false, s, [])

/- The lazy-header guard of CipherFileIO::readOneBlock line 252 and
   writeOneBlock line 281: initHeader runs iff headerLen != 0 and fileIV == 0. -/
def needsHeaderInit (s : CfState) : Bool := (cfHeaderLen s != 0) && (s.fileIV == 0)

/- CipherFileIO::setIV (lines 68-98).  When externalIV == 0 the new value is
   merely adopted.  Otherwise, under perFileIV, the file must be writable,
   the header is materialized via initHeader, externalIV is replaced and the
   header rewritten; a writeHeader failure restores the previous externalIV.
   Without perFileIV the call is accepted silently.  The returned list
   collects every base read/write performed. -/
def setIV (enc dec : Nat → List Nat → List Nat) (b : CfBase) (s : CfState) (newIV : Nat) :
    Option (Bool × CfState × List CfEvent) :=
  if s.externalIV = 0 then some (true, { s with externalIV := newIV }, [])
  else if s.perFileIV then
    if b.writable then
      match initHeader enc dec b s with
      | none => none
      | some (s1, ev1) =>
        let s2 := { s1 with externalIV := newIV }
        let r := writeHeader enc b s2
        if r.1 then some (true, r.2.1, ev1 ++ r.2.2)
        else some (false, { r.2.1 with externalIV := s.externalIV }, ev1 ++ r.2.2)
    else some (false, s, [])
  else some (true, s, [])

/- ===== Context.cpp / DirNode.cpp: open-node map, unlink, renameNode ===== -/

/- The Context open-file map: plaintext path (as a number) paired with
   whether the weak reference still locks to a live FileNode. -/
def lookupLive (m : List (Nat × Bool)) (p : Nat) : Bool :=
  match m.find? (fun e => e.1 == p) with
  | some e => e.2
  | none => false

/- EncFS_Context::trackNode (Context.cpp lines 67-72): openFiles[path] = node
   (replacing a dead entry if one is present, inserting otherwise). -/
def trackNode (m : List (Nat × Bool)) (p : Nat) : List (Nat × Bool) :=
  if m.any (fun e => e.1 == p) then m.map (fun e => if e.1 == p then (p, true) else e)
  else m ++ [(p, true)]

/- EncFS_Context::renameNode (Context.cpp lines 55-65): move the entry keyed
   by the old plaintext path to the new plaintext path. -/
def ctxRenameNode (m : List (Nat × Bool)) (fromP toP : Nat) : List (Nat × Bool) :=
  m.map (fun e => if e.1 == fromP then (toP, e.2) else e)

/- DirNode::unlink (DirNode.cpp lines 703-728): refuse with EBUSY when the
   plaintext path has a live open node; otherwise forward to the host file
   system (hostUnlink on the ciphertext name), leaving the map untouched. -/
def dirUnlink {α : Type} (hostUnlink : α → Nat → Int × α) (host : α)
    (m : List (Nat × Bool)) (plain cy : Nat) : Int × α × List (Nat × Bool) :=
  if lookupLive m plain then (-16, host, m)
  else
    let r := hostUnlink host cy
    (r.1, r.2, m)

/- DirNode::findOrCreate (DirNode.cpp lines 646-664) restricted to its
   effect on the open-node map: an existing live node is reused; otherwise
   a fresh node is created and tracked. -/
def findOrCreate (m : List (Nat × Bool)) (p : Nat) : List (Nat × Bool) :=
  if lookupLive m p then m else trackNode m p

/- DirNode::renameNode (DirNode.cpp lines 620-644): throw (false) when the
   destination has a live open node, before touching anything; otherwise
   findOrCreate the source node and ask it to change names, moving the map
   key on success (FileNode::setName line 139) and throwing on failure. -/
def dirRenameNode (m : List (Nat × Bool)) (fromP toP : Nat) (setNameOk : Bool) :
    Bool × List (Nat × Bool) :=
  if lookupLive m toP then (false, m)
  else
    let m1 := findOrCreate m fromP
    if setNameOk then (true, ctxRenameNode m1 fromP toP)
    else (false, m1)

/- ===== DirNode.cpp: genRenameList / rename ===== -/

/- A ciphertext directory tree: each entry carries its encoded name. -/
inductive FTree where
  | file (cname : Nat) : FTree
  | dir (cname : Nat) (children : List FTree) : FTree

/- DirNode::genRenameList (DirNode.cpp lines 411-503) over the entries of
   the source directory.  dec abstracts naming->decodePath under the old IV
   (none = thrown decode error), enc abstracts naming->encodePath under the
   new IV (none = thrown encode error).  An entry whose name fails to
   decode is skipped (the catch at lines 453-456 just continues); an
   encode failure aborts the whole list (lines 490-499 return false,
   modeled as none).  Subdirectory records precede their parent. -/
def genRenameList (dec enc : Nat → Option Nat) : List FTree → Option (List (Nat × Nat))
  | [] => some []
  | FTree.file c :: rest =>
    match dec c with
    | none => genRenameList dec enc rest
    | some plain =>
      match enc plain with
      | none => none
      | some newC =>
        match genRenameList dec enc rest with
        | none => none
        | some l => some ((c, newC) :: l)
  | FTree.dir c children :: rest =>
    match dec c with
    | none => genRenameList dec enc rest
    | some plain =>
      match enc plain with
      | none => none
      | some newC =>
        match genRenameList dec enc children with
        | none => none
        | some sub =>
          match genRenameList dec enc rest with
          | none => none
          | some l => some (sub ++ (c, newC) :: l)

/- DirNode::rename (DirNode.cpp lines 534-593), recursive-rename part:
   when chained-IV naming is on and the source is a directory, a failed
   list generation (newRenameOp returning null) or a failed apply leads to
   undo and -EACCES (permission_denied); otherwise the result of the
   top-level rename step is returned. -/
def dirRename (chained isDir : Bool) (gen : Option (List (Nat × Nat)))
    (applyOk : Bool) (topRes : Int) : Int :=
  if chained && isDir then
    match gen with
    | none => -13
    | some _ => if applyOk then topRes else -13
  else topRes

/- ===== BlockFileIO.cpp over the in-memory base of MemBlockFileIO.cpp ===== -/

/- State of a MemBlockFileIO-backed BlockFileIO: the MemFileIO byte buffer
   (MemFileIO.cpp) and the one-block cache (offset, valid bytes); an empty
   cData models dataLen == 0 (a cleared cache). -/
structure BState where
  buf : List Nat
  cOff : Nat
  cData : List Nat

/- MemFileIO::read (MemFileIO.cpp lines 56-69): return up to len bytes
   starting at off, clipped at the buffer size. -/
def memRead (buf : List Nat) (off len : Nat) : List Nat := (buf.drop off).take len

/- MemFileIO::write (MemFileIO.cpp lines 71-85): grow the buffer (resize
   zero-fills) when the write reaches past the end, then copy d at off. -/
def memWrite (buf : List Nat) (off : Nat) (d : List Nat) : List Nat :=
  let b := buf ++ List.replicate (off + d.length - buf.length) 0
  b.take off ++ d ++ b.drop (off + d.length)

/- BlockFileIO::cacheReadOneBlock (BlockFileIO.cpp lines 58-86): serve from
   the cache when the offset matches and the cache is non-empty; otherwise
   clear the cache, read a full block from the base, record a successful
   result in the cache, and return at most len bytes of it. -/
def cacheRead (bs : Nat) (s : BState) (off len : Nat) : List Nat × BState :=
  if off = s.cOff ∧ s.cData ≠ [] then (s.cData.take len, s)
  else
    let r := memRead s.buf off bs
    if r.length > 0 then (r.take len, ⟨s.buf, off, r⟩)
    else ([], ⟨s.buf, s.cOff, []⟩)

/- BlockFileIO::cacheWriteOneBlock (BlockFileIO.cpp lines 88-97): record the
   written bytes in the cache and pass them to the base (MemBlockFileIO's
   writeOneBlock never fails). -/
def cacheWrite (s : BState) (off : Nat) (d : List Nat) : BState :=
  ⟨memWrite s.buf off d, off, d⟩

/- A memset-zeroed buffer of n bytes whose front has been filled by a read
   that returned r (used by padFile and the merge path of write). -/
def padZeros (r : List Nat) (n : Nat) : List Nat :=
  (r ++ List.replicate (n - r.length) 0).take n

/- memcpy of d into l at position pos (l keeps its length when
   pos + d.length does not exceed it). -/
def spliceAt (l : List Nat) (pos : Nat) (d : List Nat) : List Nat :=
  l.take pos ++ d ++ l.drop (pos + d.length)

/- The middle loop of BlockFileIO::padFile (lines 313-321): write a zero
   block at every index from lo up to hi. -/
def padZeroBlocks (bs : Nat) (s : BState) (lo hi : Nat) : BState :=
  if lo < hi then
    padZeroBlocks bs (cacheWrite s (lo * bs) (List.replicate bs 0)) (lo + 1) hi
  else s
termination_by hi - lo

/- BlockFileIO::padFile (BlockFileIO.cpp lines 263-331). -/
def padFile (bs : Nat) (allowHoles : Bool) (s : BState) (oldSize newSize : Nat)
    (forceWrite : Bool) : BState :=
  let oldLB := oldSize / bs
  let newLB := newSize / bs
  let lastBlockSize := newSize % bs
  if oldLB = newLB then
    if forceWrite then
      if newSize % bs ≠ 0 then
        let q := cacheRead bs s (oldLB * bs) (oldSize % bs)
        cacheWrite q.2 (oldLB * bs) (padZeros q.1 (newSize % bs))
      else s
    else s
  else
    let p1 :=
      if oldSize % bs ≠ 0 then
        let q := cacheRead bs s (oldLB * bs) (oldSize % bs)
        (cacheWrite q.2 (oldLB * bs) (padZeros q.1 bs), oldLB + 1)
      else (s, oldLB)
    let s2 := if allowHoles then p1.1 else padZeroBlocks bs p1.1 p1.2 newLB
    if forceWrite ∧ lastBlockSize ≠ 0 then
      cacheWrite s2 (newLB * bs) (List.replicate lastBlockSize 0)
    else s2

/- One pass of the block-walking loop of BlockFileIO::write (lines 210-242):
   choose the state and the bytes handed to cacheWriteOneBlock for the block
   at blockNum.  A full block, or a block past the old end of file, is
   written directly from the caller data (preceded by partOff zero bytes
   when unaligned); any other block is merged with the existing data read
   through the cache.  fileSize and lneb are the values computed before the
   loop (lines 162-174), with lneb the possibly negative lastNonEmptyBlock. -/
def bwChunk (bs : Nat) (s : BState) (blockNum partOff : Nat) (data : List Nat)
    (fileSize : Nat) (lneb : Int) : BState × List Nat :=
  let toCopy := min (bs - partOff) data.length
  if toCopy = bs ∨ (partOff = 0 ∧ fileSize ≤ blockNum * bs + toCopy) then
    (s, data.take toCopy)
  else if lneb < (blockNum : Int) then
    (s, List.replicate partOff 0 ++ data.take toCopy)
  else
    let q := cacheRead bs s (blockNum * bs) bs
    let dlen := max q.1.length (partOff + toCopy)
    (q.2, spliceAt (padZeros q.1 dlen) partOff (data.take toCopy))

/- The block-walking loop of BlockFileIO::write (lines 202-256): prepare one
   block with bwChunk, write it through the cache, advance. -/
def bwriteLoop (bs : Nat) (s : BState) (blockNum partOff : Nat) (data : List Nat)
    (fileSize : Nat) (lneb : Int) (hp : partOff < bs) : BState :=
  if hd : data = [] then s
  else
    bwriteLoop bs
      (cacheWrite (bwChunk bs s blockNum partOff data fileSize lneb).1 (blockNum * bs)
        (bwChunk bs s blockNum partOff data fileSize lneb).2)
      (blockNum + 1) 0 (data.drop (min (bs - partOff) data.length)) fileSize lneb
      (Nat.lt_of_le_of_lt (Nat.zero_le partOff) hp)
termination_by data.length
decreasing_by
  simp only [List.length_drop]
  have h1 : 0 < data.length := List.length_pos.mpr hd
  have h2 : 0 < bs - partOff := by omega
  omega

/- BlockFileIO::write (BlockFileIO.cpp lines 156-259): extend the file with
   padFile when writing past the end; write a single block directly when the
   request is aligned and covers a full block, or covers the whole tail of
   the last block; otherwise run the block-walking loop. -/
def bwrite (bs : Nat) (allowHoles : Bool) (s : BState) (off : Nat) (data : List Nat)
    (hbs : 1 < bs) : BState :=
  let fileSize := s.buf.length
  let blockNum := off / bs
  let partOff := off % bs
  let lastFileBlock := fileSize / bs
  let lastBlockSize := fileSize % bs
  let lneb : Int := (lastFileBlock : Int) - (if lastBlockSize = 0 then 1 else 0)
  let s1 := if fileSize < off then padFile bs allowHoles s fileSize off false else s
  if partOff = 0 ∧ data.length ≤ bs ∧
      (data.length = bs ∨ (blockNum = lastFileBlock ∧ lastBlockSize ≤ data.length)) then
    cacheWrite s1 off data
  else
    bwriteLoop bs s1 blockNum partOff data fileSize lneb
      (Nat.mod_lt off (by omega))

/- The block-walking loop of BlockFileIO::read (lines 110-152): read a full
   block, stop when it does not reach past partOff, copy the covered bytes,
   and continue while full blocks keep coming. -/
def breadLoop (bs : Nat) (s : BState) (blockNum partOff len : Nat) (hp : partOff < bs) :
    List Nat × BState :=
  if len = 0 then ([], s)
  else
    if (cacheRead bs s (blockNum * bs) bs).1.length ≤ partOff then
      ([], (cacheRead bs s (blockNum * bs) bs).2)
    else
      if (cacheRead bs s (blockNum * bs) bs).1.length < bs then
        (((cacheRead bs s (blockNum * bs) bs).1.drop partOff).take
            (min ((cacheRead bs s (blockNum * bs) bs).1.length - partOff) len),
          (cacheRead bs s (blockNum * bs) bs).2)
      else
        ((((cacheRead bs s (blockNum * bs) bs).1.drop partOff).take
            (min ((cacheRead bs s (blockNum * bs) bs).1.length - partOff) len))
          ++ (breadLoop bs (cacheRead bs s (blockNum * bs) bs).2 (blockNum + 1) 0
              (len - min ((cacheRead bs s (blockNum * bs) bs).1.length - partOff) len)
              (Nat.lt_of_le_of_lt (Nat.zero_le partOff) hp)).1,
          (breadLoop bs (cacheRead bs s (blockNum * bs) bs).2 (blockNum + 1) 0
              (len - min ((cacheRead bs s (blockNum * bs) bs).1.length - partOff) len)
              (Nat.lt_of_le_of_lt (Nat.zero_le partOff) hp)).2)
termination_by len
decreasing_by omega

/- BlockFileIO::read (BlockFileIO.cpp lines 99-154). -/
def bread (bs : Nat) (s : BState) (off len : Nat) (hbs : 0 < bs) : List Nat × BState :=
  if off % bs = 0 ∧ len ≤ bs then cacheRead bs s off len
  else breadLoop bs s (off / bs) (off % bs) len (Nat.mod_lt off hbs)

/- Cache coherence: a non-empty cache holds exactly the current content of
   the block at its offset.  Every reachable BState satisfies this. -/
def Coherent (bs : Nat) (s : BState) : Prop :=
  s.cData ≠ [] → s.cData = (s.buf.drop s.cOff).take bs

/- Byte access with zero default, matching what a reader observes. -/
def byteAt (buf : List Nat) (i : Nat) : Nat := buf.getD i 0

/- ===== Theorems ===== -/

/- Helper bounds for roundUpDivide (the ceiling division of MACFileIO.cpp). -/

theorem rud_le (a d : Nat) (hd : 0 < d) : a ≤ d * roundUpDivide a d := by
  rcases a with _ | a
  · exact Nat.zero_le _
  · unfold roundUpDivide
    have h1 : a + 1 + d - 1 = a + d := by omega
    rw [h1, Nat.add_div_right a hd, Nat.mul_add, Nat.mul_one]
    have h2 := Nat.div_add_mod a d
    have h3 : a % d < d := Nat.mod_lt a hd
    omega

theorem rud_lt (a d : Nat) (hd : 0 < d) : d * roundUpDivide a d < a + d := by
  unfold roundUpDivide
  calc d * ((a + d - 1) / d) = ((a + d - 1) / d) * d := Nat.mul_comm _ _
    _ ≤ a + d - 1 := Nat.div_mul_le_self _ _
    _ < a + d := by omega

theorem rud_unique (a d k : Nat) (hd : 0 < d) (h1 : a ≤ d * k) (h2 : d * k < a + d) :
    roundUpDivide a d = k := by
  unfold roundUpDivide
  have hub : (a + d - 1) / d < k + 1 := by
    rw [Nat.div_lt_iff_lt_mul hd]
    have h3 : (k + 1) * d = d * k + d := by ring
    omega
  have hlb : k ≤ (a + d - 1) / d := by
    rw [Nat.le_div_iff_mul_le hd]
    have h3 : k * d = d * k := Nat.mul_comm _ _
    omega
  omega

/-- Claim C2: for every user offset u and every MAC header size h with
0 < h < bs, translating a user offset into the headered stream and back is
the identity: locWithoutHeader (locWithHeader u bs h) bs h = u. -/
theorem c2_offset_bijection (u bs h : Nat) (hh : 0 < h) (hbs : h < bs) :
    locWithoutHeader (locWithHeader u bs h) bs h = u := by
  have hm0 : 0 < bs - h := by omega
  have h1 := rud_le u (bs - h) hm0
  have h2 := rud_lt u (bs - h) hm0
  have hsplit : (bs - h) + h = bs := by omega
  have e1 : (bs - h) * roundUpDivide u (bs - h) + h * roundUpDivide u (bs - h)
      = bs * roundUpDivide u (bs - h) := by
    rw [← Nat.add_mul, hsplit]
  have e2 : roundUpDivide u (bs - h) * h = h * roundUpDivide u (bs - h) :=
    Nat.mul_comm _ _
  have key : roundUpDivide (u + roundUpDivide u (bs - h) * h) bs
      = roundUpDivide u (bs - h) := by
    apply rud_unique _ _ _ (by omega) <;> omega
  show u + roundUpDivide u (bs - h) * h
      - roundUpDivide (u + roundUpDivide u (bs - h) * h) bs * h = u
  rw [key]
  omega

/-- Witness for C2 at u = 23, bs = 10, h = 2. -/
theorem c2_offset_bijection_witness :
    0 < 2 ∧ 2 < 10 ∧ locWithoutHeader (locWithHeader 23 10 2) 10 2 = 23 :=
  ⟨by decide, by decide, c2_offset_bijection 23 10 2 (by decide) (by decide)⟩

/-- Claim C6: RawFileIO::write performs positional writes with a budget of 10
retries: rawWrite enters the loop with retrys = 10; a pwrite hitting EINTR is
retried without consuming a retry; a (possibly partial) successful write of n
bytes advances the buffer and offset by n, shrinks the remaining byte count
and consumes one retry; and when the budget is exhausted with bytes still
unwritten the call fails with EIO. -/
theorem c6_raw_write_retries (tr tr2 : List PwriteOutcome) (bytes off retrys n b2 o2 : Nat)
    (hb : 0 < bytes) (hr : 0 < retrys) (hb2 : 0 < b2) :
    rawWrite tr bytes off = pwriteLoop tr bytes off 10
    ∧ pwriteLoop (PwriteOutcome.eintr :: tr) bytes off retrys = pwriteLoop tr bytes off retrys
    ∧ pwriteLoop (PwriteOutcome.wrote n :: tr) bytes off retrys
        = pwriteLoop tr (bytes - n) (off + n) (retrys - 1)
    ∧ pwriteLoop tr2 b2 o2 0 = some (Except.error eioErrno) := by
  obtain ⟨b, rfl⟩ : ∃ b, bytes = b + 1 := ⟨bytes - 1, by omega⟩
  obtain ⟨r, rfl⟩ : ∃ r, retrys = r + 1 := ⟨retrys - 1, by omega⟩
  obtain ⟨c, rfl⟩ : ∃ c, b2 = c + 1 := ⟨b2 - 1, by omega⟩
  exact ⟨rfl, rfl, rfl, by cases tr2 <;> rfl⟩

/-- Witness for C6 with one-element traces, 3 bytes remaining, 2 retries. -/
theorem c6_raw_write_retries_witness :
    0 < 3 ∧ 0 < 2
    ∧ pwriteLoop [PwriteOutcome.eintr] 3 7 2 = pwriteLoop [] 3 7 2
    ∧ pwriteLoop [PwriteOutcome.wrote 1] 3 7 2 = pwriteLoop [] (3 - 1) (7 + 1) (2 - 1)
    ∧ pwriteLoop [] 3 7 0 = some (Except.error eioErrno) := by
  have h := c6_raw_write_retries [] [] 3 7 2 1 3 7 (by decide) (by decide) (by decide)
  exact ⟨by decide, by decide, h.2.1, h.2.2.1, h.2.2.2⟩

/-- Claim C3 (amended): for a block read through MACFileIO::readOneBlock with
the base read returning more than headerSize bytes, when MAC verification is
not skipped (it is skipped when allowHoles is set and every byte read is
zero, and when macBytes = 0) and the stored MAC bytes differ from the low
macBytes bytes of MAC64 over the random and data bytes as read, the read
raises an error (surfaced as EIO) when warnOnly is false, and returns the
possibly corrupt data bytes after logging a warning when warnOnly is true. -/
theorem c3_mac_mismatch (macBytes randBytes : Nat) (warnOnly allowHoles : Bool)
    (mac64 : List Nat → Nat) (blk : List Nat)
    (hlen : macBytes + randBytes < blk.length)
    (hskip : skipBlockOf allowHoles macBytes blk = false)
    (hmm : macMismatchScan (mac64 (blk.drop macBytes)) (blk.take macBytes) = true) :
    macReadBlock macBytes randBytes warnOnly allowHoles mac64 blk
      = if warnOnly then Except.ok (blk.drop (macBytes + randBytes))
        else Except.error () := by
  unfold macReadBlock
  simp only [hlen, if_true, hskip, Bool.false_eq_true, if_false, hmm]

/-- Witness for C3 on the two-byte block [0, 7] with macBytes = 1. -/
theorem c3_mac_mismatch_witness :
    1 + 0 < ([0, 7] : List Nat).length
    ∧ skipBlockOf false 1 [0, 7] = false
    ∧ macMismatchScan ((fun _ => 1) (([0, 7] : List Nat).drop 1)) (([0, 7] : List Nat).take 1) = true
    ∧ macReadBlock 1 0 false false (fun _ => 1) [0, 7]
        = if false then Except.ok (([0, 7] : List Nat).drop (1 + 0)) else Except.error () :=
  ⟨by decide, by decide, rfl,
    c3_mac_mismatch 1 0 false false (fun _ => 1) [0, 7] (by decide) (by decide) rfl⟩

/-- Claim C3 counterexample: with allowHoles set and an all-zero stored block,
the stored MAC byte (0) differs from the low byte of the computed MAC (here
mac64 of the read bytes is 1), warnOnly is false, yet readOneBlock does not
raise an error: the all-zero block skips verification and the data bytes are
returned. -/
theorem c3_counterexample :
    macMismatchScan ((fun _ : List Nat => 1) (([0, 0] : List Nat).drop 1))
        (([0, 0] : List Nat).take 1) = true
    ∧ macReadBlock 1 0 false true (fun _ => 1) [0, 0] = Except.ok [0] :=
  ⟨rfl, rfl⟩

/- Helper facts about the big-endian packing and serialization loops. -/

theorem lorByte (a b : Nat) (hb : b < 256) : (a <<< 8) ||| b = a * 256 + b := by
  have hb2 : b < 2 ^ 8 := by norm_num at hb ⊢; omega
  rw [Nat.shiftLeft_eq]
  calc a * 2 ^ 8 ||| b = 2 ^ 8 * a ||| b := by rw [Nat.mul_comm]
    _ = 2 ^ 8 * a + b := (Nat.mul_add_lt_is_or hb2 a).symm
    _ = a * 256 + b := by ring_nf

theorem serHeader_snd (n iv : Nat) : (serHeader n iv).2 = iv / 256 ^ n := by
  induction n generalizing iv with
  | zero => simp [serHeader]
  | succ n ih =>
    show (serHeader n (iv / 256)).2 = iv / 256 ^ (n + 1)
    rw [ih, Nat.div_div_eq_div_mul, ← pow_succ']

theorem serHeader_foldl (n : Nat) : ∀ iv acc : Nat,
    List.foldl (fun a b => (a <<< 8) ||| b) acc (serHeader n iv).1
      = acc * 256 ^ n + iv % 256 ^ n := by
  induction n with
  | zero => intro iv acc; simp [serHeader, Nat.mod_one]
  | succ n ih =>
    intro iv acc
    show List.foldl _ acc ((serHeader n (iv / 256)).1 ++ [iv % 256]) = _
    rw [List.foldl_append, List.foldl_cons, List.foldl_nil, ih,
      lorByte _ _ (Nat.mod_lt _ (by norm_num))]
    have hm : iv % (256 * 256 ^ n) = iv % 256 + 256 * (iv / 256 % 256 ^ n) :=
      Nat.mod_mul
    have hp : (256 : Nat) ^ (n + 1) = 256 * 256 ^ n := pow_succ' 256 n
    rw [hp, hm]
    ring

theorem serHeader_packBE (n iv : Nat) : packBE (serHeader n iv).1 = iv % 256 ^ n := by
  unfold packBE
  rw [serHeader_foldl]
  simp

theorem firstNonZeroDraw_spec (draws : List (List Nat)) (d : List Nat) (iv : Nat)
    (h : firstNonZeroDraw draws = some (d, iv)) : iv ≠ 0 ∧ iv = packBE d := by
  induction draws with
  | nil => simp [firstNonZeroDraw] at h
  | cons a rest ih =>
    unfold firstNonZeroDraw at h
    by_cases ha : packBE a = 0
    · rw [if_pos ha] at h
      exact ih h
    · rw [if_neg ha] at h
      obtain ⟨h1, h2⟩ := Prod.mk.injEq .. ▸ Option.some.injEq .. ▸ h
      subst h1
      subst h2
      exact ⟨ha, rfl⟩

/-- Claim C4: with perFileIV enabled, when initHeader creates a fresh header
(the raw file is shorter than headerLen) it draws 8 random bytes repeatedly
until the packed fileIV is non-zero, so the fileIV it installs is non-zero
and the single header write holds the stream-encoding of bytes that decrypt
(under externalIV) to that same non-zero value; fileIV = 0 stays reserved
for the uninitialized state. -/
theorem c4_fresh_fileiv_nonzero (enc dec : Nat → List Nat → List Nat) (b : CfBase)
    (s s' : CfState) (evs : List CfEvent)
    (hp : s.perFileIV = true) (hfresh : b.rawSize < cfHeaderLen s)
    (hinv : ∀ iv l, dec iv (enc iv l) = l)
    (hrun : initHeader enc dec b s = some (s', evs)) :
    s'.fileIV ≠ 0
    ∧ ∃ w, evs = [CfEvent.writeBase 0 w] ∧ packBE (dec s.externalIV w) = s'.fileIV := by
  unfold initHeader at hrun
  rw [if_neg (by omega)] at hrun
  rw [if_pos hp] at hrun
  cases hfz : firstNonZeroDraw b.draws with
  | none => rw [hfz] at hrun; exact absurd hrun (by simp)
  | some p =>
    obtain ⟨d, iv⟩ := p
    rw [hfz] at hrun
    obtain ⟨hnz, hiv⟩ := firstNonZeroDraw_spec b.draws d iv hfz
    obtain ⟨hs, hevs⟩ := Prod.mk.injEq .. ▸ Option.some.injEq .. ▸ hrun
    refine ⟨by rw [← hs]; exact hnz, enc s.externalIV d, hevs.symm, ?_⟩
    rw [hinv, ← hs, ← hiv]

/-- Witness for C4: a fresh file whose first random draw packs to 1. -/
theorem c4_fresh_fileiv_nonzero_witness :
    (CfState.mk true 0 0).perFileIV = true
    ∧ (CfBase.mk 0 [] true [[0, 0, 0, 0, 0, 0, 0, 1]]).rawSize < cfHeaderLen (CfState.mk true 0 0)
    ∧ ((CfState.mk true 0 1).fileIV ≠ 0
       ∧ ∃ w, [CfEvent.writeBase 0 [0, 0, 0, 0, 0, 0, 0, 1]] = [CfEvent.writeBase 0 w]
           ∧ packBE ((fun _ l => l) (CfState.mk true 0 0).externalIV w)
               = (CfState.mk true 0 1).fileIV) :=
  ⟨rfl, by decide,
    c4_fresh_fileiv_nonzero (fun _ l => l) (fun _ l => l)
      (CfBase.mk 0 [] true [[0, 0, 0, 0, 0, 0, 0, 1]]) (CfState.mk true 0 0)
      (CfState.mk true 0 1) [CfEvent.writeBase 0 [0, 0, 0, 0, 0, 0, 0, 1]]
      rfl (by decide) (fun _ _ => rfl) rfl⟩

/-- Claim C9: a setIV call in a state with externalIV = 0 only stores the new
external IV and returns true: fileIV and perFileIV are untouched and the
list of base interactions is empty (no header read, no header write),
regardless of perFileIV. -/
theorem c9_setiv_no_disk (enc dec : Nat → List Nat → List Nat) (b : CfBase)
    (s : CfState) (newIV : Nat) (h0 : s.externalIV = 0) :
    setIV enc dec b s newIV = some (true, { s with externalIV := newIV }, []) := by
  unfold setIV
  rw [if_pos h0]

/-- Witness for C9 with perFileIV on and a non-zero fileIV. -/
theorem c9_setiv_no_disk_witness :
    (CfState.mk true 0 5).externalIV = 0
    ∧ setIV (fun _ l => l) (fun _ l => l) (CfBase.mk 9 [1] true []) (CfState.mk true 0 5) 7
        = some (true, CfState.mk true 7 5, []) :=
  ⟨rfl, c9_setiv_no_disk (fun _ l => l) (fun _ l => l) (CfBase.mk 9 [1] true [])
    (CfState.mk true 0 5) 7 rfl⟩

/-- Claim C10: after writeHeader with perFileIV, the serialization loop has
shifted the fileIV member down to 0, so the object is back in the
uninitialized state even though a valid header was written; the lazy guard
of readOneBlock/writeOneBlock therefore fires again, and initHeader run on
the written header restores the original fileIV from disk. -/
theorem c10_writeheader_resets_fileiv (enc dec : Nat → List Nat → List Nat) (b : CfBase)
    (s : CfState) (hp : s.perFileIV = true) (hw : b.writable = true)
    (hlt : s.fileIV < 2 ^ 64) (hnz : s.fileIV ≠ 0)
    (hinv : ∀ iv l, dec iv (enc iv l) = l) :
    (writeHeader enc b s).1 = true
    ∧ (writeHeader enc b s).2.1.fileIV = 0
    ∧ needsHeaderInit (writeHeader enc b s).2.1 = true
    ∧ ∃ w, (writeHeader enc b s).2.2 = [CfEvent.writeBase 0 w]
        ∧ initHeader enc dec { b with rawSize := 8, hdrBytes := w }
            (writeHeader enc b s).2.1
          = some (s, [CfEvent.readBase 0 8]) := by
  have hwH : writeHeader enc b s
      = (true, { s with fileIV := (serHeader 8 s.fileIV).2 },
         [CfEvent.writeBase 0 (enc s.externalIV (serHeader 8 s.fileIV).1)]) := by
    unfold writeHeader
    rw [if_pos hw, if_pos hp]
  have hz : (serHeader 8 s.fileIV).2 = 0 := by
    rw [serHeader_snd]
    apply Nat.div_eq_of_lt
    calc s.fileIV < 2 ^ 64 := hlt
      _ ≤ 256 ^ 8 := by norm_num
  rw [hwH]
  refine ⟨rfl, hz, ?_, enc s.externalIV (serHeader 8 s.fileIV).1, rfl, ?_⟩
  · simp [needsHeaderInit, cfHeaderLen, hp, hz]
  · unfold initHeader
    have hhl : cfHeaderLen { s with fileIV := (serHeader 8 s.fileIV).2 } = 8 := by
      simp [cfHeaderLen, hp]
    rw [if_pos (by rw [hhl])]
    rw [if_pos (show ({ s with fileIV := (serHeader 8 s.fileIV).2 } : CfState).perFileIV from hp)]
    have hdec : dec ({ s with fileIV := (serHeader 8 s.fileIV).2 } : CfState).externalIV
        (enc s.externalIV (serHeader 8 s.fileIV).1) = (serHeader 8 s.fileIV).1 := hinv _ _
    rw [hdec, serHeader_packBE]
    have hmod : s.fileIV % 256 ^ 8 = s.fileIV := by
      apply Nat.mod_eq_of_lt
      calc s.fileIV < 2 ^ 64 := hlt
        _ ≤ 256 ^ 8 := by norm_num
    rw [hmod, if_neg hnz]

/-- Witness for C10 with fileIV = 3. -/
theorem c10_writeheader_resets_fileiv_witness :
    (CfState.mk true 2 3).perFileIV = true
    ∧ (CfBase.mk 9 [1] true []).writable = true
    ∧ (CfState.mk true 2 3).fileIV < 2 ^ 64
    ∧ (CfState.mk true 2 3).fileIV ≠ 0
    ∧ ((writeHeader (fun _ l => l) (CfBase.mk 9 [1] true []) (CfState.mk true 2 3)).1 = true
      ∧ (writeHeader (fun _ l => l) (CfBase.mk 9 [1] true []) (CfState.mk true 2 3)).2.1.fileIV = 0
      ∧ needsHeaderInit
          (writeHeader (fun _ l => l) (CfBase.mk 9 [1] true []) (CfState.mk true 2 3)).2.1 = true
      ∧ ∃ w, (writeHeader (fun _ l => l) (CfBase.mk 9 [1] true []) (CfState.mk true 2 3)).2.2
            = [CfEvent.writeBase 0 w]
          ∧ initHeader (fun _ l => l) (fun _ l => l)
              { CfBase.mk 9 [1] true [] with rawSize := 8, hdrBytes := w }
              (writeHeader (fun _ l => l) (CfBase.mk 9 [1] true []) (CfState.mk true 2 3)).2.1
            = some (CfState.mk true 2 3, [CfEvent.readBase 0 8])) :=
  ⟨rfl, rfl, by decide, by decide,
    c10_writeheader_resets_fileiv (fun _ l => l) (fun _ l => l) (CfBase.mk 9 [1] true [])
      (CfState.mk true 2 3) rfl rfl (by decide) (by decide) (fun _ _ => rfl)⟩

/-- Claim C7: unlink of a plaintext path with a live entry in the open-node
map returns -EBUSY (device_or_resource_busy = 16) and leaves both the host
file system and the map untouched; without a live entry it forwards to the
host unlink, still leaving the map untouched. -/
theorem c7_unlink_busy {α : Type} (hostUnlink : α → Nat → Int × α) (host : α)
    (m : List (Nat × Bool)) (plain cy : Nat) :
    (lookupLive m plain = true → dirUnlink hostUnlink host m plain cy = (-16, host, m))
    ∧ (lookupLive m plain = false →
        dirUnlink hostUnlink host m plain cy
          = ((hostUnlink host cy).1, (hostUnlink host cy).2, m)) := by
  constructor
  · intro h
    unfold dirUnlink
    rw [if_pos h]
  · intro h
    unfold dirUnlink
    rw [if_neg (by rw [h]; exact Bool.false_ne_true)]

/-- Witness for C7: path 3 is live (busy branch); path 4 has only a dead
entry (forwarding branch against a host that deletes key cy from its list). -/
theorem c7_unlink_busy_witness :
    lookupLive [(3, true), (4, false)] 3 = true
    ∧ dirUnlink (fun (h : List Nat) (c : Nat) => ((0 : Int), h.erase c))
        [5, 9] [(3, true), (4, false)] 3 5 = (-16, [5, 9], [(3, true), (4, false)])
    ∧ lookupLive [(3, true), (4, false)] 4 = false
    ∧ dirUnlink (fun (h : List Nat) (c : Nat) => ((0 : Int), h.erase c))
        [5, 9] [(3, true), (4, false)] 4 5 = (0, [9], [(3, true), (4, false)]) :=
  ⟨by decide,
    (c7_unlink_busy (fun (h : List Nat) (c : Nat) => ((0 : Int), h.erase c))
      [5, 9] [(3, true), (4, false)] 3 5).1 (by decide),
    by decide,
    (c7_unlink_busy (fun (h : List Nat) (c : Nat) => ((0 : Int), h.erase c))
      [5, 9] [(3, true), (4, false)] 4 5).2 (by decide)⟩

/-- Claim C8: when the destination plaintext path has a live FileNode in the
open-node map, DirNode::renameNode throws before changing anything: the call
fails and the map is exactly as before, so a rename never overwrites an open
destination. -/
theorem c8_rename_refuses_open_dest (m : List (Nat × Bool)) (fromP toP : Nat)
    (setNameOk : Bool) (hlive : lookupLive m toP = true) :
    dirRenameNode m fromP toP setNameOk = (false, m) := by
  unfold dirRenameNode
  rw [if_pos hlive]

/-- Witness for C8: destination 7 is open and the rename is refused. -/
theorem c8_rename_refuses_open_dest_witness :
    lookupLive [(2, true), (7, true)] 7 = true
    ∧ dirRenameNode [(2, true), (7, true)] 2 7 true = (false, [(2, true), (7, true)]) :=
  ⟨by decide, c8_rename_refuses_open_dest [(2, true), (7, true)] 2 7 true (by decide)⟩

/-- Claim C1 (amended): during a recursive rename under chained-IV naming, a
child entry of the source directory whose ciphertext name fails to decode is
silently skipped (genRenameList proceeds as if the entry were absent and
renames the rest), while a child whose decoded name fails to re-encode under
the destination IV aborts the whole rename: genRenameList fails and
DirNode::rename returns permission-denied (-EACCES = -13). -/
theorem c1_rename_list_skip_and_abort (dec enc : Nat → Option Nat) (c c2 p : Nat)
    (rest : List FTree) (children : List FTree) (applyOk : Bool) (topRes : Int)
    (hdec : dec c = none) (hdec2 : dec c2 = some p) (henc2 : enc p = none) :
    genRenameList dec enc (FTree.file c :: rest) = genRenameList dec enc rest
    ∧ genRenameList dec enc (FTree.dir c children :: rest) = genRenameList dec enc rest
    ∧ genRenameList dec enc (FTree.file c2 :: rest) = none
    ∧ genRenameList dec enc (FTree.dir c2 children :: rest) = none
    ∧ dirRename true true none applyOk topRes = -13 := by
  refine ⟨?_, ?_, ?_, ?_, rfl⟩
  · rw [genRenameList, hdec]
  · rw [genRenameList, hdec]
  · rw [genRenameList]
    simp only [hdec2, henc2]
  · rw [genRenameList]
    simp only [hdec2, henc2]

/-- Witness for C1: name 5 fails to decode, name 6 decodes to 6 but fails to
re-encode; the directory listing also contains the well-formed entry 7. -/
theorem c1_rename_list_skip_and_abort_witness :
    (fun n => if n = 5 then none else some n) 5 = (none : Option Nat)
    ∧ (fun n => if n = 5 then none else some n) 6 = some 6
    ∧ (fun n => if n = 6 then none else some n) 6 = (none : Option Nat)
    ∧ genRenameList (fun n => if n = 5 then none else some n)
        (fun n => if n = 6 then none else some n) [FTree.file 5, FTree.file 7]
        = genRenameList (fun n => if n = 5 then none else some n)
            (fun n => if n = 6 then none else some n) [FTree.file 7]
    ∧ genRenameList (fun n => if n = 5 then none else some n)
        (fun n => if n = 6 then none else some n) [FTree.file 6, FTree.file 7] = none
    ∧ dirRename true true none true 0 = -13 := by
  have h := c1_rename_list_skip_and_abort (fun n => if n = 5 then none else some n)
    (fun n => if n = 6 then none else some n) 5 6 6 [FTree.file 7] [] true 0
    (by decide) (by decide) (by decide)
  exact ⟨by decide, by decide, by decide, h.1, h.2.2.1, h.2.2.2.2⟩

/-- Claim C1 counterexample: the entry named 5 fails to decode, yet
genRenameList does not abort: it returns a successful rename list containing
the remaining (decodable) entry 7, contradicting the claim that any decode
failure on a child makes genRenameList return failure. -/
theorem c1_counterexample :
    (fun n => if n = 5 then none else some n) 5 = (none : Option Nat)
    ∧ genRenameList (fun n => if n = 5 then none else some n) (fun n => some n)
        [FTree.file 5, FTree.file 7] = some [(7, 7)] := by
  constructor
  · decide
  · rw [genRenameList]
    norm_num
    rw [genRenameList]
    norm_num
    rw [genRenameList]

/- Byte-level access helpers for the BlockFileIO development. -/

theorem byteAt_of_le (l : List Nat) (i : Nat) (h : l.length ≤ i) : byteAt l i = 0 :=
  List.getD_eq_default l 0 h

theorem byteAt_append_left (l m : List Nat) (i : Nat) (h : i < l.length) :
    byteAt (l ++ m) i = byteAt l i :=
  List.getD_append l m 0 i h

theorem byteAt_append_right (l m : List Nat) (i : Nat) (h : l.length ≤ i) :
    byteAt (l ++ m) i = byteAt m (i - l.length) :=
  List.getD_append_right l m 0 i h

theorem byteAt_replicate (n i : Nat) : byteAt (List.replicate n 0) i = 0 := by
  unfold byteAt
  rcases Nat.lt_or_ge i n with h | h
  · rw [List.getD_eq_getElem _ _ (by simpa using h), List.getElem_replicate]
  · exact List.getD_eq_default _ _ (by simpa using h)

theorem byteAt_take (l : List Nat) (n i : Nat) (h : i < n) :
    byteAt (l.take n) i = byteAt l i := by
  unfold byteAt
  rcases Nat.lt_or_ge i l.length with hl | hl
  · have h1 : i < (l.take n).length := by
      simp only [List.length_take]
      omega
    rw [List.getD_eq_getElem _ _ h1, List.getD_eq_getElem _ _ hl, List.getElem_take]
  · rw [List.getD_eq_default _ _ hl, List.getD_eq_default]
    simp only [List.length_take]
    omega

theorem byteAt_drop (l : List Nat) (n i : Nat) : byteAt (l.drop n) i = byteAt l (n + i) := by
  unfold byteAt
  rcases Nat.lt_or_ge (n + i) l.length with hl | hl
  · have h1 : i < (l.drop n).length := by
      simp only [List.length_drop]
      omega
    rw [List.getD_eq_getElem _ _ h1, List.getD_eq_getElem _ _ hl, List.getElem_drop]
  · rw [List.getD_eq_default _ _ hl, List.getD_eq_default]
    simp only [List.length_drop]
    omega

theorem byteAt_pad (l : List Nat) (n i : Nat) :
    byteAt (l ++ List.replicate n 0) i = byteAt l i := by
  rcases Nat.lt_or_ge i l.length with h | h
  · exact byteAt_append_left _ _ _ h
  · rw [byteAt_append_right _ _ _ h, byteAt_replicate, byteAt_of_le _ _ h]

/- Facts about memWrite (MemFileIO::write). -/

theorem memWrite_length (buf : List Nat) (off : Nat) (d : List Nat) :
    (memWrite buf off d).length = max buf.length (off + d.length) := by
  unfold memWrite
  simp only [List.length_append, List.length_take, List.length_drop,
    List.length_replicate]
  omega

theorem byteAt_memWrite_lt (buf : List Nat) (off : Nat) (d : List Nat) (i : Nat)
    (h : i < off) : byteAt (memWrite buf off d) i = byteAt buf i := by
  unfold memWrite
  set b := buf ++ List.replicate (off + d.length - buf.length) 0 with hb
  have ht : (b.take off).length = off := by
    simp only [List.length_take, hb, List.length_append, List.length_replicate]
    omega
  rw [List.append_assoc, byteAt_append_left _ _ _ (by omega), byteAt_take _ _ _ h, hb,
    byteAt_pad]

theorem byteAt_memWrite_mid (buf : List Nat) (off : Nat) (d : List Nat) (i : Nat)
    (h1 : off ≤ i) (h2 : i < off + d.length) :
    byteAt (memWrite buf off d) i = byteAt d (i - off) := by
  unfold memWrite
  set b := buf ++ List.replicate (off + d.length - buf.length) 0 with hb
  have ht : (b.take off).length = off := by
    simp only [List.length_take, hb, List.length_append, List.length_replicate]
    omega
  rw [List.append_assoc, byteAt_append_right _ _ _ (by omega), ht,
    byteAt_append_left _ _ _ (by omega)]

theorem byteAt_memWrite_ge (buf : List Nat) (off : Nat) (d : List Nat) (i : Nat)
    (h : off + d.length ≤ i) : byteAt (memWrite buf off d) i = byteAt buf i := by
  unfold memWrite
  set b := buf ++ List.replicate (off + d.length - buf.length) 0 with hb
  have ht : (b.take off).length = off := by
    simp only [List.length_take, hb, List.length_append, List.length_replicate]
    omega
  rw [List.append_assoc, byteAt_append_right _ _ _ (by omega), ht,
    byteAt_append_right _ _ _ (by omega), byteAt_drop]
  have he : off + d.length + (i - off - d.length) = i := by omega
  rw [he, hb, byteAt_pad]

/- Facts about padZeros and spliceAt (the zeroed temp block and memcpy). -/

theorem padZeros_length (r : List Nat) (n : Nat) : (padZeros r n).length = n := by
  unfold padZeros
  simp only [List.length_take, List.length_append, List.length_replicate]
  omega

theorem byteAt_padZeros_lt (r : List Nat) (n i : Nat) (h1 : i < r.length) (h2 : i < n) :
    byteAt (padZeros r n) i = byteAt r i := by
  unfold padZeros
  rw [byteAt_take _ _ _ h2, byteAt_append_left _ _ _ h1]

theorem byteAt_padZeros_ge (r : List Nat) (n i : Nat) (h1 : r.length ≤ i) :
    byteAt (padZeros r n) i = 0 := by
  rcases Nat.lt_or_ge i n with h2 | h2
  · unfold padZeros
    rw [byteAt_take _ _ _ h2, byteAt_append_right _ _ _ h1, byteAt_replicate]
  · exact byteAt_of_le _ _ (by rw [padZeros_length]; omega)

theorem spliceAt_length (l : List Nat) (pos : Nat) (d : List Nat)
    (h : pos + d.length ≤ l.length) : (spliceAt l pos d).length = l.length := by
  unfold spliceAt
  simp only [List.length_append, List.length_take, List.length_drop]
  omega

theorem byteAt_spliceAt_lt (l : List Nat) (pos : Nat) (d : List Nat) (i : Nat)
    (hpos : pos ≤ l.length) (h : i < pos) :
    byteAt (spliceAt l pos d) i = byteAt l i := by
  unfold spliceAt
  have ht : (l.take pos).length = pos := by
    simp only [List.length_take]
    omega
  rw [List.append_assoc, byteAt_append_left _ _ _ (by omega), byteAt_take _ _ _ h]

/- Facts about memRead (MemFileIO::read). -/

theorem memRead_length (buf : List Nat) (off len : Nat) :
    (memRead buf off len).length = min len (buf.length - off) := by
  unfold memRead
  simp only [List.length_take, List.length_drop]

theorem byteAt_memRead (buf : List Nat) (off len j : Nat) (h : j < len) :
    byteAt (memRead buf off len) j = byteAt buf (off + j) := by
  unfold memRead
  rw [byteAt_take _ _ _ h, byteAt_drop]

/- Facts about the one-block cache (cacheReadOneBlock / cacheWriteOneBlock). -/

theorem cacheRead_fst (bs : Nat) (s : BState) (off len : Nat) (hcoh : Coherent bs s) :
    (cacheRead bs s off len).1 = (memRead s.buf off bs).take len := by
  unfold cacheRead
  by_cases hhit : off = s.cOff ∧ s.cData ≠ []
  · rw [if_pos hhit]
    obtain ⟨h1, h2⟩ := hhit
    have hc := hcoh h2
    subst h1
    rw [hc]
    rfl
  · rw [if_neg hhit]
    by_cases hr : (memRead s.buf off bs).length > 0
    · simp only [if_pos hr]
    · simp only [if_neg hr]
      have hnil : memRead s.buf off bs = [] := List.eq_nil_of_length_eq_zero (by omega)
      rw [hnil]
      simp

theorem cacheRead_buf (bs : Nat) (s : BState) (off len : Nat) :
    (cacheRead bs s off len).2.buf = s.buf := by
  unfold cacheRead
  by_cases hhit : off = s.cOff ∧ s.cData ≠ []
  · rw [if_pos hhit]
  · rw [if_neg hhit]
    by_cases hr : (memRead s.buf off bs).length > 0
    · simp only [if_pos hr]
    · simp only [if_neg hr]

theorem cacheRead_coherent (bs : Nat) (s : BState) (off len : Nat) (hcoh : Coherent bs s) :
    Coherent bs (cacheRead bs s off len).2 := by
  unfold cacheRead
  by_cases hhit : off = s.cOff ∧ s.cData ≠ []
  · rw [if_pos hhit]
    exact hcoh
  · rw [if_neg hhit]
    by_cases hr : (memRead s.buf off bs).length > 0
    · simp only [if_pos hr]
      intro _
      rfl
    · simp only [if_neg hr]
      intro h
      exact absurd rfl h

theorem cacheWrite_buf (s : BState) (off : Nat) (d : List Nat) :
    (cacheWrite s off d).buf = memWrite s.buf off d := rfl

theorem cacheWrite_coherent (bs : Nat) (s : BState) (off : Nat) (d : List Nat)
    (hlen : d.length ≤ bs) (hcover : s.buf.length ≤ off + d.length ∨ d.length = bs) :
    Coherent bs (cacheWrite s off d) := by
  intro hne
  show d = ((memWrite s.buf off d).drop off).take bs
  unfold memWrite
  set b := s.buf ++ List.replicate (off + d.length - s.buf.length) 0 with hb
  have ht : (b.take off).length = off := by
    simp only [List.length_take, hb, List.length_append, List.length_replicate]
    omega
  rw [List.append_assoc, List.drop_left' ht]
  rcases hcover with hc | hc
  · have hdrop : b.drop (off + d.length) = [] := by
      apply List.drop_eq_nil_of_le
      simp only [hb, List.length_append, List.length_replicate]
      omega
    rw [hdrop, List.append_nil, List.take_of_length_le hlen]
  · rw [← hc, List.take_left' rfl]

/- The zero-block padding loop of padFile appends k zero blocks to a file
   that ends exactly at block lo, preserving everything below. -/
theorem padZeroBlocks_spec (bs : Nat) (hbs : 0 < bs) :
    ∀ (k lo : Nat) (s : BState), Coherent bs s → s.buf.length = lo * bs →
    Coherent bs (padZeroBlocks bs s lo (lo + k))
    ∧ (padZeroBlocks bs s lo (lo + k)).buf.length = (lo + k) * bs
    ∧ (∀ i, i < lo * bs → byteAt (padZeroBlocks bs s lo (lo + k)).buf i = byteAt s.buf i)
    ∧ (∀ i, lo * bs ≤ i → byteAt (padZeroBlocks bs s lo (lo + k)).buf i = 0) := by
  intro k
  induction k with
  | zero =>
    intro lo s hcoh hlen
    rw [Nat.add_zero, padZeroBlocks, if_neg (lt_irrefl lo)]
    exact ⟨hcoh, hlen, fun i _ => rfl, fun i hi => byteAt_of_le _ _ (by omega)⟩
  | succ k ih =>
    intro lo s hcoh hlen
    have hmul : (lo + 1) * bs = lo * bs + bs := by ring
    have hlt : lo < lo + (k + 1) := by omega
    rw [padZeroBlocks, if_pos hlt]
    have hcoh1 : Coherent bs (cacheWrite s (lo * bs) (List.replicate bs 0)) := by
      apply cacheWrite_coherent
      · simp
      · right
        simp
    have hlen1 : (cacheWrite s (lo * bs) (List.replicate bs 0)).buf.length
        = (lo + 1) * bs := by
      rw [cacheWrite_buf, memWrite_length, hlen, List.length_replicate]
      omega
    have ihh := ih (lo + 1) (cacheWrite s (lo * bs) (List.replicate bs 0)) hcoh1 hlen1
    have harg : lo + 1 + k = lo + (k + 1) := by omega
    rw [harg] at ihh
    obtain ⟨ih1, ih2, ih3, ih4⟩ := ihh
    refine ⟨ih1, ih2, ?_, ?_⟩
    · intro i hi
      rw [ih3 i (by omega), cacheWrite_buf, byteAt_memWrite_lt _ _ _ _ hi]
    · intro i hi
      rcases Nat.lt_or_ge i ((lo + 1) * bs) with h2 | h2
      · rw [ih3 i h2, cacheWrite_buf,
          byteAt_memWrite_mid _ _ _ _ hi (by rw [List.length_replicate]; omega),
          byteAt_replicate]
      · exact ih4 i (by omega)

/- padFile with old and new inside the same block and no forced write is a
   no-op (BlockFileIO.cpp lines 271-290). -/
theorem padFile_same (bs : Nat) (ah : Bool) (s : BState) (old new : Nat)
    (h : old / bs = new / bs) : padFile bs ah s old new false = s := by
  unfold padFile
  rw [if_pos h]
  rfl

/- padFile across blocks, holes disallowed, no forced write: the old partial
   tail block is completed with zeros and zero blocks are written up to the
   last block boundary below newSize; every byte from oldSize on reads 0. -/
theorem padFile_spec (bs : Nat) (hbs : 0 < bs) (s : BState) (old new : Nat)
    (hcoh : Coherent bs s) (hold : s.buf.length = old) (hlt : old < new)
    (hdiff : old / bs ≠ new / bs) :
    Coherent bs (padFile bs false s old new false)
    ∧ (padFile bs false s old new false).buf.length = (new / bs) * bs
    ∧ (∀ i, i < old → byteAt (padFile bs false s old new false).buf i = byteAt s.buf i)
    ∧ (∀ i, old ≤ i → byteAt (padFile bs false s old new false).buf i = 0) := by
  have hdm : bs * (old / bs) + old % bs = old := Nat.div_add_mod old bs
  have hbo : (old / bs) * bs = bs * (old / bs) := Nat.mul_comm _ _
  have hmod : old % bs < bs := Nat.mod_lt old hbs
  have hdivlt : old / bs < new / bs :=
    lt_of_le_of_ne (Nat.div_le_div_right (by omega)) hdiff
  have hmul1 : (old / bs + 1) * bs = old / bs * bs + bs := by ring
  by_cases hm : old % bs ≠ 0
  · -- step 1 runs: the old tail block is completed to a full block
    have hpf : padFile bs false s old new false
        = padZeroBlocks bs
            (cacheWrite (cacheRead bs s (old / bs * bs) (old % bs)).2 (old / bs * bs)
              (padZeros (cacheRead bs s (old / bs * bs) (old % bs)).1 bs))
            (old / bs + 1) (new / bs) := by
      unfold padFile
      rw [if_neg hdiff, if_pos hm]
      rfl
    have hq1 : (cacheRead bs s (old / bs * bs) (old % bs)).1
        = (memRead s.buf (old / bs * bs) bs).take (old % bs) :=
      cacheRead_fst bs s _ _ hcoh
    have hmrl : (memRead s.buf (old / bs * bs) bs).length = old % bs := by
      rw [memRead_length, hold]
      omega
    have hqlen : (cacheRead bs s (old / bs * bs) (old % bs)).1.length = old % bs := by
      rw [hq1, List.length_take, hmrl]
      omega
    have hq1b : ∀ j, j < old % bs →
        byteAt (cacheRead bs s (old / bs * bs) (old % bs)).1 j
          = byteAt s.buf (old / bs * bs + j) := by
      intro j hj
      rw [hq1, byteAt_take _ _ _ hj, byteAt_memRead _ _ _ _ (by omega)]
    have hqbuf : (cacheRead bs s (old / bs * bs) (old % bs)).2.buf = s.buf :=
      cacheRead_buf bs s _ _
    have hdlen : (padZeros (cacheRead bs s (old / bs * bs) (old % bs)).1 bs).length = bs :=
      padZeros_length _ _
    have hcoh1 : Coherent bs
        (cacheWrite (cacheRead bs s (old / bs * bs) (old % bs)).2 (old / bs * bs)
          (padZeros (cacheRead bs s (old / bs * bs) (old % bs)).1 bs)) := by
      apply cacheWrite_coherent
      · rw [hdlen]
      · right
        exact hdlen
    have hlen1 : (cacheWrite (cacheRead bs s (old / bs * bs) (old % bs)).2 (old / bs * bs)
          (padZeros (cacheRead bs s (old / bs * bs) (old % bs)).1 bs)).buf.length
        = (old / bs + 1) * bs := by
      rw [cacheWrite_buf, memWrite_length, hqbuf, hold, hdlen]
      omega
    have hbyte1 : ∀ i, i < (old / bs + 1) * bs →
        byteAt (cacheWrite (cacheRead bs s (old / bs * bs) (old % bs)).2 (old / bs * bs)
          (padZeros (cacheRead bs s (old / bs * bs) (old % bs)).1 bs)).buf i
        = if i < old then byteAt s.buf i else 0 := by
      intro i hi
      rw [cacheWrite_buf, hqbuf]
      rcases Nat.lt_or_ge i (old / bs * bs) with h1 | h1
      · rw [byteAt_memWrite_lt _ _ _ _ h1, if_pos (by omega)]
      · rw [byteAt_memWrite_mid _ _ _ _ h1 (by omega)]
        rcases Nat.lt_or_ge i old with h2 | h2
        · rw [byteAt_padZeros_lt _ _ _ (by omega) (by omega), hq1b _ (by omega),
            if_pos h2]
          congr 1
          omega
        · rw [byteAt_padZeros_ge _ _ _ (by omega), if_neg (by omega)]
    obtain ⟨p1, p2, p3, p4⟩ := padZeroBlocks_spec bs hbs (new / bs - (old / bs + 1))
      (old / bs + 1)
      (cacheWrite (cacheRead bs s (old / bs * bs) (old % bs)).2 (old / bs * bs)
        (padZeros (cacheRead bs s (old / bs * bs) (old % bs)).1 bs)) hcoh1 hlen1
    have hk : old / bs + 1 + (new / bs - (old / bs + 1)) = new / bs := by omega
    rw [hk] at p1 p2 p3 p4
    rw [hpf]
    refine ⟨p1, p2, ?_, ?_⟩
    · intro i hi
      rw [p3 i (by omega), hbyte1 i (by omega), if_pos hi]
    · intro i hi
      rcases Nat.lt_or_ge i ((old / bs + 1) * bs) with h2 | h2
      · rw [p3 i h2, hbyte1 i h2, if_neg (by omega)]
      · exact p4 i (by omega)
  · -- step 1 skipped: the file already ends on a block boundary
    push_neg at hm
    have hpf : padFile bs false s old new false
        = padZeroBlocks bs s (old / bs) (new / bs) := by
      unfold padFile
      rw [if_neg hdiff, if_neg (show ¬ old % bs ≠ 0 by omega)]
      rfl
    have hlen0 : s.buf.length = (old / bs) * bs := by omega
    obtain ⟨p1, p2, p3, p4⟩ := padZeroBlocks_spec bs hbs (new / bs - old / bs)
      (old / bs) s hcoh hlen0
    have hk : old / bs + (new / bs - old / bs) = new / bs := by omega
    rw [hk] at p1 p2 p3 p4
    rw [hpf]
    refine ⟨p1, p2, ?_, ?_⟩
    · intro i hi
      exact p3 i (by omega)
    · intro i hi
      rcases Nat.lt_or_ge i ((old / bs) * bs) with h2 | h2
      · omega
      · exact p4 i h2

/- When blockNum is beyond lastNonEmptyBlock, the whole block lies at or
   past the end of the (stale) file size. -/
theorem lneb_fileSize_le (bs fileSize bn : Nat) (hbs : 0 < bs)
    (h : ((fileSize / bs : Nat) : Int) - (if fileSize % bs = 0 then 1 else 0) < (bn : Int)) :
    fileSize ≤ bn * bs := by
  have hdm : bs * (fileSize / bs) + fileSize % bs = fileSize := Nat.div_add_mod fileSize bs
  have hmod : fileSize % bs < bs := Nat.mod_lt fileSize hbs
  by_cases hz : fileSize % bs = 0
  · rw [if_pos hz] at h
    have hle : fileSize / bs ≤ bn := by omega
    calc fileSize = bs * (fileSize / bs) := by omega
      _ ≤ bs * bn := Nat.mul_le_mul_left bs hle
      _ = bn * bs := Nat.mul_comm _ _
  · rw [if_neg hz] at h
    have hle : fileSize / bs + 1 ≤ bn := by omega
    have hstep : fileSize < bs * (fileSize / bs + 1) := by
      rw [Nat.mul_add, Nat.mul_one]
      omega
    have hmono : bs * (fileSize / bs + 1) ≤ bs * bn := Nat.mul_le_mul_left bs hle
    calc fileSize ≤ bs * (fileSize / bs + 1) := le_of_lt hstep
      _ ≤ bs * bn := hmono
      _ = bn * bs := Nat.mul_comm _ _

/- Branch equations for bwChunk. -/

theorem bwChunk_direct (bs : Nat) (s : BState) (bn po : Nat) (data : List Nat)
    (fileSize : Nat) (lneb : Int)
    (hA : min (bs - po) data.length = bs
      ∨ (po = 0 ∧ fileSize ≤ bn * bs + min (bs - po) data.length)) :
    bwChunk bs s bn po data fileSize lneb = (s, data.take (min (bs - po) data.length)) := by
  simp only [bwChunk]
  rw [if_pos hA]

theorem bwChunk_pad (bs : Nat) (s : BState) (bn po : Nat) (data : List Nat)
    (fileSize : Nat) (lneb : Int)
    (hA : ¬ (min (bs - po) data.length = bs
      ∨ (po = 0 ∧ fileSize ≤ bn * bs + min (bs - po) data.length)))
    (hB : lneb < (bn : Int)) :
    bwChunk bs s bn po data fileSize lneb
      = (s, List.replicate po 0 ++ data.take (min (bs - po) data.length)) := by
  simp only [bwChunk]
  rw [if_neg hA, if_pos hB]

theorem bwChunk_merge (bs : Nat) (s : BState) (bn po : Nat) (data : List Nat)
    (fileSize : Nat) (lneb : Int)
    (hA : ¬ (min (bs - po) data.length = bs
      ∨ (po = 0 ∧ fileSize ≤ bn * bs + min (bs - po) data.length)))
    (hB : ¬ lneb < (bn : Int)) :
    bwChunk bs s bn po data fileSize lneb
      = ((cacheRead bs s (bn * bs) bs).2,
        spliceAt (padZeros (cacheRead bs s (bn * bs) bs).1
          (max (cacheRead bs s (bn * bs) bs).1.length (po + min (bs - po) data.length)))
          po (data.take (min (bs - po) data.length))) := by
  simp only [bwChunk]
  rw [if_neg hA, if_neg hB]

theorem bwChunk_direct_fst (bs : Nat) (s : BState) (bn po : Nat) (data : List Nat)
    (fileSize : Nat) (lneb : Int)
    (hA : min (bs - po) data.length = bs
      ∨ (po = 0 ∧ fileSize ≤ bn * bs + min (bs - po) data.length)) :
    (bwChunk bs s bn po data fileSize lneb).1 = s := by
  rw [bwChunk_direct bs s bn po data fileSize lneb hA]

theorem bwChunk_direct_snd (bs : Nat) (s : BState) (bn po : Nat) (data : List Nat)
    (fileSize : Nat) (lneb : Int)
    (hA : min (bs - po) data.length = bs
      ∨ (po = 0 ∧ fileSize ≤ bn * bs + min (bs - po) data.length)) :
    (bwChunk bs s bn po data fileSize lneb).2 = data.take (min (bs - po) data.length) := by
  rw [bwChunk_direct bs s bn po data fileSize lneb hA]

theorem bwChunk_pad_fst (bs : Nat) (s : BState) (bn po : Nat) (data : List Nat)
    (fileSize : Nat) (lneb : Int)
    (hA : ¬ (min (bs - po) data.length = bs
      ∨ (po = 0 ∧ fileSize ≤ bn * bs + min (bs - po) data.length)))
    (hB : lneb < (bn : Int)) :
    (bwChunk bs s bn po data fileSize lneb).1 = s := by
  rw [bwChunk_pad bs s bn po data fileSize lneb hA hB]

theorem bwChunk_pad_snd (bs : Nat) (s : BState) (bn po : Nat) (data : List Nat)
    (fileSize : Nat) (lneb : Int)
    (hA : ¬ (min (bs - po) data.length = bs
      ∨ (po = 0 ∧ fileSize ≤ bn * bs + min (bs - po) data.length)))
    (hB : lneb < (bn : Int)) :
    (bwChunk bs s bn po data fileSize lneb).2
      = List.replicate po 0 ++ data.take (min (bs - po) data.length) := by
  rw [bwChunk_pad bs s bn po data fileSize lneb hA hB]

theorem bwChunk_merge_fst (bs : Nat) (s : BState) (bn po : Nat) (data : List Nat)
    (fileSize : Nat) (lneb : Int)
    (hA : ¬ (min (bs - po) data.length = bs
      ∨ (po = 0 ∧ fileSize ≤ bn * bs + min (bs - po) data.length)))
    (hB : ¬ lneb < (bn : Int)) :
    (bwChunk bs s bn po data fileSize lneb).1 = (cacheRead bs s (bn * bs) bs).2 := by
  rw [bwChunk_merge bs s bn po data fileSize lneb hA hB]

theorem bwChunk_merge_snd (bs : Nat) (s : BState) (bn po : Nat) (data : List Nat)
    (fileSize : Nat) (lneb : Int)
    (hA : ¬ (min (bs - po) data.length = bs
      ∨ (po = 0 ∧ fileSize ≤ bn * bs + min (bs - po) data.length)))
    (hB : ¬ lneb < (bn : Int)) :
    (bwChunk bs s bn po data fileSize lneb).2
      = spliceAt (padZeros (cacheRead bs s (bn * bs) bs).1
          (max (cacheRead bs s (bn * bs) bs).1.length (po + min (bs - po) data.length)))
          po (data.take (min (bs - po) data.length)) := by
  rw [bwChunk_merge bs s bn po data fileSize lneb hA hB]

/- The block-walking loop of BlockFileIO::write keeps the cache coherent,
   never touches bytes below its starting block, and never shrinks the
   file. -/
theorem bwriteLoop_spec (bs fileSize : Nat) (lneb : Int) (hbs : 0 < bs)
    (hlneb : lneb = ((fileSize / bs : Nat) : Int) - (if fileSize % bs = 0 then 1 else 0)) :
    ∀ (n : Nat) (data : List Nat), data.length ≤ n →
    ∀ (s : BState) (bn po : Nat) (hp : po < bs),
    Coherent bs s → s.buf.length ≤ max fileSize (bn * bs) →
    Coherent bs (bwriteLoop bs s bn po data fileSize lneb hp)
    ∧ (∀ i, i < bn * bs →
        byteAt (bwriteLoop bs s bn po data fileSize lneb hp).buf i = byteAt s.buf i)
    ∧ s.buf.length ≤ (bwriteLoop bs s bn po data fileSize lneb hp).buf.length := by
  intro n
  induction n with
  | zero =>
    intro data hle s bn po hp hcoh hsz
    have hnil : data = [] := List.eq_nil_of_length_eq_zero (by omega)
    subst hnil
    rw [bwriteLoop, dif_pos rfl]
    exact ⟨hcoh, fun i _ => rfl, le_refl _⟩
  | succ n ih =>
    intro data hle s bn po hp hcoh hsz
    by_cases hd : data = []
    · subst hd
      rw [bwriteLoop, dif_pos rfl]
      exact ⟨hcoh, fun i _ => rfl, le_refl _⟩
    · have hdl : 0 < data.length := List.length_pos.mpr hd
      have htc : 0 < min (bs - po) data.length := by omega
      have htcbs : min (bs - po) data.length ≤ bs := by omega
      have hmul : (bn + 1) * bs = bn * bs + bs := by ring
      have key : ∀ (s' : BState) (chunk : List Nat) (hp0 : (0 : Nat) < bs),
          s'.buf = s.buf → Coherent bs s' → chunk.length ≤ bs →
          (s.buf.length ≤ bn * bs + chunk.length ∨ chunk.length = bs) →
          Coherent bs (bwriteLoop bs (cacheWrite s' (bn * bs) chunk) (bn + 1) 0
            (data.drop (min (bs - po) data.length)) fileSize lneb hp0)
          ∧ (∀ i, i < bn * bs →
              byteAt (bwriteLoop bs (cacheWrite s' (bn * bs) chunk) (bn + 1) 0
                (data.drop (min (bs - po) data.length)) fileSize lneb hp0).buf i
                = byteAt s.buf i)
          ∧ s.buf.length ≤ (bwriteLoop bs (cacheWrite s' (bn * bs) chunk) (bn + 1) 0
              (data.drop (min (bs - po) data.length)) fileSize lneb hp0).buf.length := by
        intro s' chunk hp0 hbuf hcoh' hchlen hcover
        have hcoh2 : Coherent bs (cacheWrite s' (bn * bs) chunk) := by
          apply cacheWrite_coherent bs s' (bn * bs) chunk hchlen
          rw [hbuf]
          exact hcover
        have hlen2 : (cacheWrite s' (bn * bs) chunk).buf.length
            = max s'.buf.length (bn * bs + chunk.length) := by
          rw [cacheWrite_buf, memWrite_length]
        have hsz2 : (cacheWrite s' (bn * bs) chunk).buf.length
            ≤ max fileSize ((bn + 1) * bs) := by
          rw [hlen2, hbuf]
          omega
        have hdrop : (data.drop (min (bs - po) data.length)).length ≤ n := by
          rw [List.length_drop]
          omega
        obtain ⟨c1, c2, c3⟩ := ih (data.drop (min (bs - po) data.length)) hdrop
          (cacheWrite s' (bn * bs) chunk) (bn + 1) 0 hp0 hcoh2 hsz2
        refine ⟨c1, ?_, ?_⟩
        · intro i hi
          rw [c2 i (by omega), cacheWrite_buf, byteAt_memWrite_lt _ _ _ _ hi, hbuf]
        · calc s.buf.length = s'.buf.length := by rw [hbuf]
            _ ≤ (cacheWrite s' (bn * bs) chunk).buf.length := by
                rw [hlen2]
                omega
            _ ≤ _ := c3
      rw [bwriteLoop, dif_neg hd]
      by_cases hA : min (bs - po) data.length = bs
          ∨ (po = 0 ∧ fileSize ≤ bn * bs + min (bs - po) data.length)
      · rw [bwChunk_direct bs s bn po data fileSize lneb hA]
        have hl1 : (data.take (min (bs - po) data.length)).length ≤ bs := by
          rw [List.length_take]
          omega
        have hc1 : s.buf.length ≤ bn * bs + (data.take (min (bs - po) data.length)).length
            ∨ (data.take (min (bs - po) data.length)).length = bs := by
          rw [List.length_take]
          rcases hA with h | ⟨h1, h2⟩
          · right
            omega
          · left
            omega
        exact key s (data.take (min (bs - po) data.length)) hbs rfl hcoh hl1 hc1
      · by_cases hB : lneb < (bn : Int)
        · rw [bwChunk_pad bs s bn po data fileSize lneb hA hB]
          have hfs : fileSize ≤ bn * bs := lneb_fileSize_le bs fileSize bn hbs (hlneb ▸ hB)
          have hl1 : (List.replicate po 0 ++ data.take (min (bs - po) data.length)).length
              ≤ bs := by
            simp only [List.length_append, List.length_replicate, List.length_take]
            omega
          have hc1 : s.buf.length ≤ bn * bs
                + (List.replicate po 0 ++ data.take (min (bs - po) data.length)).length
              ∨ (List.replicate po 0 ++ data.take (min (bs - po) data.length)).length = bs := by
            left
            simp only [List.length_append, List.length_replicate, List.length_take]
            omega
          exact key s (List.replicate po 0 ++ data.take (min (bs - po) data.length)) hbs rfl
            hcoh hl1 hc1
        · rw [bwChunk_merge bs s bn po data fileSize lneb hA hB]
          have hq1 : (cacheRead bs s (bn * bs) bs).1 = (memRead s.buf (bn * bs) bs).take bs :=
            cacheRead_fst bs s _ _ hcoh
          have hqlen : (cacheRead bs s (bn * bs) bs).1.length
              = min bs (s.buf.length - bn * bs) := by
            rw [hq1, List.length_take, memRead_length]
            omega
          have hqbuf := cacheRead_buf bs s (bn * bs) bs
          have hqcoh := cacheRead_coherent bs s (bn * bs) bs hcoh
          have hsplen : (spliceAt (padZeros (cacheRead bs s (bn * bs) bs).1
                (max (cacheRead bs s (bn * bs) bs).1.length (po + min (bs - po) data.length)))
                po (data.take (min (bs - po) data.length))).length
              = max (cacheRead bs s (bn * bs) bs).1.length
                  (po + min (bs - po) data.length) := by
            rw [spliceAt_length]
            · rw [padZeros_length]
            · rw [padZeros_length, List.length_take]
              omega
          have hl1 : (spliceAt (padZeros (cacheRead bs s (bn * bs) bs).1
                (max (cacheRead bs s (bn * bs) bs).1.length (po + min (bs - po) data.length)))
                po (data.take (min (bs - po) data.length))).length ≤ bs := by
            rw [hsplen]
            omega
          have hc1 : s.buf.length ≤ bn * bs
                + (spliceAt (padZeros (cacheRead bs s (bn * bs) bs).1
                  (max (cacheRead bs s (bn * bs) bs).1.length
                    (po + min (bs - po) data.length)))
                  po (data.take (min (bs - po) data.length))).length
              ∨ (spliceAt (padZeros (cacheRead bs s (bn * bs) bs).1
                  (max (cacheRead bs s (bn * bs) bs).1.length
                    (po + min (bs - po) data.length)))
                  po (data.take (min (bs - po) data.length))).length = bs := by
            rw [hsplen]
            omega
          exact key (cacheRead bs s (bn * bs) bs).2
            (spliceAt (padZeros (cacheRead bs s (bn * bs) bs).1
              (max (cacheRead bs s (bn * bs) bs).1.length (po + min (bs - po) data.length)))
              po (data.take (min (bs - po) data.length))) hbs hqbuf hqcoh hl1 hc1

theorem take_one_drop (l : List Nat) (j : Nat) (hj : j < l.length) :
    (l.drop j).take 1 = [byteAt l j] := by
  rw [List.drop_eq_getElem_cons hj, show (1 : Nat) = 0 + 1 from rfl,
    List.take_succ_cons, List.take_zero]
  unfold byteAt
  rw [List.getD_eq_getElem _ _ hj]

theorem memRead_take_one (bs : Nat) (hbs : 0 < bs) (buf : List Nat) (o : Nat)
    (ho : o < buf.length) : (memRead buf o bs).take 1 = [byteAt buf o] := by
  unfold memRead
  rw [List.take_take]
  have hmin : min 1 bs = 1 := by omega
  rw [hmin]
  exact take_one_drop buf o ho

/- A single-byte BlockFileIO::read on a coherent state returns the byte of
   the underlying buffer. -/
theorem bread_single (bs : Nat) (hbs : 0 < bs) (s : BState) (hcoh : Coherent bs s)
    (i : Nat) (hi : i < s.buf.length) :
    (bread bs s i 1 hbs).1 = [byteAt s.buf i] := by
  have hdm : bs * (i / bs) + i % bs = i := Nat.div_add_mod i bs
  have hmod : i % bs < bs := Nat.mod_lt i hbs
  have hbo : i / bs * bs = bs * (i / bs) := Nat.mul_comm _ _
  unfold bread
  by_cases hz : i % bs = 0
  · rw [if_pos ⟨hz, by omega⟩]
    rw [cacheRead_fst bs s i 1 hcoh]
    exact memRead_take_one bs hbs s.buf i hi
  · rw [if_neg (fun hand => hz hand.1)]
    rw [breadLoop, if_neg one_ne_zero]
    have hq1 : (cacheRead bs s (i / bs * bs) bs).1
        = (memRead s.buf (i / bs * bs) bs).take bs := cacheRead_fst bs s _ _ hcoh
    have hqlen : (cacheRead bs s (i / bs * bs) bs).1.length
        = min bs (s.buf.length - i / bs * bs) := by
      rw [hq1, List.length_take, memRead_length]
      omega
    have hstrict : i % bs < (cacheRead bs s (i / bs * bs) bs).1.length := by
      rw [hqlen]
      omega
    rw [if_neg (show ¬ ((cacheRead bs s (i / bs * bs) bs).1.length ≤ i % bs) by omega)]
    have hcpy : min ((cacheRead bs s (i / bs * bs) bs).1.length - i % bs) 1 = 1 := by
      omega
    have hchunk : ((cacheRead bs s (i / bs * bs) bs).1.drop (i % bs)).take
        (min ((cacheRead bs s (i / bs * bs) bs).1.length - i % bs) 1)
        = [byteAt s.buf i] := by
      have hidx : i / bs * bs + i % bs = i := by omega
      rw [hcpy, take_one_drop _ _ hstrict, hq1,
        byteAt_take _ _ _ hmod, byteAt_memRead _ _ _ _ hmod, hidx]
    by_cases hlast : (cacheRead bs s (i / bs * bs) bs).1.length < bs
    · rw [if_pos hlast]
      exact hchunk
    · rw [if_neg hlast, hcpy]
      have hrec : (breadLoop bs (cacheRead bs s (i / bs * bs) bs).2 (i / bs + 1) 0 (1 - 1)
          (Nat.lt_of_le_of_lt (Nat.zero_le (i % bs)) (Nat.mod_lt i hbs))).1 = [] := by
        rw [breadLoop]
        rfl
      rw [hcpy] at hchunk
      show ((cacheRead bs s (i / bs * bs) bs).1.drop (i % bs)).take 1
          ++ (breadLoop bs (cacheRead bs s (i / bs * bs) bs).2 (i / bs + 1) 0 (1 - 1) _).1
          = [byteAt s.buf i]
      rw [hrec, List.append_nil]
      exact hchunk

/- An extending BlockFileIO::write (offset beyond the current size, holes
   disallowed) leaves a coherent state whose buffer reaches the write offset
   and holds 0 in every byte of the former gap. -/
theorem bwrite_gap (bs : Nat) (hbs : 1 < bs) (s : BState) (hcoh : Coherent bs s)
    (off : Nat) (data : List Nat) (hdata : data ≠ []) (hoff : s.buf.length < off) :
    Coherent bs (bwrite bs false s off data hbs)
    ∧ off ≤ (bwrite bs false s off data hbs).buf.length
    ∧ ∀ i, s.buf.length ≤ i → i < off →
        byteAt (bwrite bs false s off data hbs).buf i = 0 := by
  have hbs0 : 0 < bs := by omega
  have hdl0 : 0 < data.length := List.length_pos.mpr hdata
  have hdm : bs * (off / bs) + off % bs = off := Nat.div_add_mod off bs
  have hdmS : bs * (s.buf.length / bs) + s.buf.length % bs = s.buf.length :=
    Nat.div_add_mod _ bs
  have hmod : off % bs < bs := Nat.mod_lt off hbs0
  have hmodS : s.buf.length % bs < bs := Nat.mod_lt _ hbs0
  have hboff : off / bs * bs = bs * (off / bs) := Nat.mul_comm _ _
  have hboffS : s.buf.length / bs * bs = bs * (s.buf.length / bs) := Nat.mul_comm _ _
  have hdivle : s.buf.length / bs ≤ off / bs := Nat.div_le_div_right (le_of_lt hoff)
  have hmul : (off / bs + 1) * bs = off / bs * bs + bs := by ring
  have hT : 0 < min (bs - off % bs) data.length := by omega
  have hTbs : off % bs + min (bs - off % bs) data.length ≤ bs := by omega
  have htake : (data.take (min (bs - off % bs) data.length)).length
      = min (bs - off % bs) data.length := by
    rw [List.length_take]
    omega
  simp only [bwrite]
  rw [if_pos hoff]
  by_cases hfast : off % bs = 0 ∧ data.length ≤ bs
      ∧ (data.length = bs ∨ (off / bs = s.buf.length / bs ∧ s.buf.length % bs ≤ data.length))
  · rw [if_pos hfast]
    obtain ⟨hpo, hle, hor⟩ := hfast
    have hdl : data.length = bs := by
      rcases hor with h | ⟨h1, h2⟩
      · exact h
      · exfalso
        have hprod : bs * (off / bs) = bs * (s.buf.length / bs) := by rw [h1]
        omega
    have hdiff : s.buf.length / bs ≠ off / bs := by
      intro he
      have hprod : bs * (s.buf.length / bs) = bs * (off / bs) := by rw [he]
      omega
    obtain ⟨pc, pl, pp, pz⟩ := padFile_spec bs hbs0 s s.buf.length off hcoh rfl hoff hdiff
    refine ⟨?_, ?_, ?_⟩
    · exact cacheWrite_coherent bs _ off data (by omega) (Or.inr hdl)
    · rw [cacheWrite_buf, memWrite_length]
      omega
    · intro i hi1 hi2
      rw [cacheWrite_buf, byteAt_memWrite_lt _ _ _ _ hi2, pz i hi1]
  · rw [if_neg hfast]
    rw [bwriteLoop, dif_neg hdata]
    have finishLem : ∀ (s2 : BState) (hp2 : (0 : Nat) < bs),
        Coherent bs s2 →
        s2.buf.length ≤ max s.buf.length ((off / bs + 1) * bs) →
        off ≤ s2.buf.length →
        (∀ i, s.buf.length ≤ i → i < off → byteAt s2.buf i = 0) →
        Coherent bs (bwriteLoop bs s2 (off / bs + 1) 0
          (data.drop (min (bs - off % bs) data.length)) s.buf.length
          (((s.buf.length / bs : Nat) : Int) - (if s.buf.length % bs = 0 then 1 else 0)) hp2)
        ∧ off ≤ (bwriteLoop bs s2 (off / bs + 1) 0
            (data.drop (min (bs - off % bs) data.length)) s.buf.length
            (((s.buf.length / bs : Nat) : Int) - (if s.buf.length % bs = 0 then 1 else 0))
            hp2).buf.length
        ∧ ∀ i, s.buf.length ≤ i → i < off →
            byteAt (bwriteLoop bs s2 (off / bs + 1) 0
              (data.drop (min (bs - off % bs) data.length)) s.buf.length
              (((s.buf.length / bs : Nat) : Int)
                - (if s.buf.length % bs = 0 then 1 else 0)) hp2).buf i = 0 := by
      intro s2 hp2 hc2 hsz2 hlen2 hz2
      obtain ⟨c1, c2, c3⟩ := bwriteLoop_spec bs s.buf.length _ hbs0 rfl
        (data.drop (min (bs - off % bs) data.length)).length
        (data.drop (min (bs - off % bs) data.length)) (le_refl _)
        s2 (off / bs + 1) 0 hp2 hc2 hsz2
      refine ⟨c1, le_trans hlen2 c3, ?_⟩
      intro i h1 h2
      rw [c2 i (by omega), hz2 i h1 h2]
    by_cases hA : min (bs - off % bs) data.length = bs
        ∨ (off % bs = 0 ∧ s.buf.length ≤ off / bs * bs + min (bs - off % bs) data.length)
    · rw [bwChunk_direct_fst bs _ (off / bs) (off % bs) data s.buf.length _ hA,
        bwChunk_direct_snd bs _ (off / bs) (off % bs) data s.buf.length _ hA]
      have hpo : off % bs = 0 := by
        rcases hA with h | ⟨h, _⟩
        · omega
        · exact h
      have hoffeq : off = off / bs * bs := by omega
      have hdiff : s.buf.length / bs ≠ off / bs := by
        intro he
        have hprod : bs * (s.buf.length / bs) = bs * (off / bs) := by rw [he]
        omega
      obtain ⟨pc, pl, pp, pz⟩ := padFile_spec bs hbs0 s s.buf.length off hcoh rfl hoff hdiff
      apply finishLem
      · exact cacheWrite_coherent bs _ _ _ (by rw [htake]; omega)
          (Or.inl (by rw [pl, htake]; omega))
      · rw [cacheWrite_buf, memWrite_length, pl, htake]
        omega
      · rw [cacheWrite_buf, memWrite_length, pl, htake]
        omega
      · intro i h1 h2
        rw [cacheWrite_buf, byteAt_memWrite_lt _ _ _ _ (by omega), pz i h1]
    · by_cases hB : (((s.buf.length / bs : Nat) : Int)
          - (if s.buf.length % bs = 0 then 1 else 0)) < ((off / bs : Nat) : Int)
      · rw [bwChunk_pad_fst bs _ (off / bs) (off % bs) data s.buf.length _ hA hB,
          bwChunk_pad_snd bs _ (off / bs) (off % bs) data s.buf.length _ hA hB]
        have hfs : s.buf.length ≤ off / bs * bs :=
          lneb_fileSize_le bs s.buf.length (off / bs) hbs0 hB
        have hchl : (List.replicate (off % bs) 0
            ++ data.take (min (bs - off % bs) data.length)).length
            = off % bs + min (bs - off % bs) data.length := by
          rw [List.length_append, List.length_replicate, htake]
        by_cases hsame : s.buf.length / bs = off / bs
        · rw [padFile_same bs false s s.buf.length off hsame]
          have hprod : s.buf.length / bs * bs = off / bs * bs := by rw [hsame]
          have hSeq : s.buf.length = off / bs * bs := by omega
          apply finishLem
          · exact cacheWrite_coherent bs s _ _ (by rw [hchl]; omega)
              (Or.inl (by rw [hchl]; omega))
          · rw [cacheWrite_buf, memWrite_length, hchl]
            omega
          · rw [cacheWrite_buf, memWrite_length, hchl]
            omega
          · intro i h1 h2
            rw [cacheWrite_buf,
              byteAt_memWrite_mid _ _ _ _ (by omega) (by rw [hchl]; omega),
              byteAt_append_left _ _ _ (by rw [List.length_replicate]; omega),
              byteAt_replicate]
        · obtain ⟨pc, pl, pp, pz⟩ :=
            padFile_spec bs hbs0 s s.buf.length off hcoh rfl hoff hsame
          apply finishLem
          · exact cacheWrite_coherent bs _ _ _ (by rw [hchl]; omega)
              (Or.inl (by rw [pl, hchl]; omega))
          · rw [cacheWrite_buf, memWrite_length, pl, hchl]
            omega
          · rw [cacheWrite_buf, memWrite_length, pl, hchl]
            omega
          · intro i h1 h2
            rcases Nat.lt_or_ge i (off / bs * bs) with hc | hc
            · rw [cacheWrite_buf, byteAt_memWrite_lt _ _ _ _ hc, pz i h1]
            · rw [cacheWrite_buf,
                byteAt_memWrite_mid _ _ _ _ hc (by rw [hchl]; omega),
                byteAt_append_left _ _ _ (by rw [List.length_replicate]; omega),
                byteAt_replicate]
      · have hble : ((off / bs : Nat) : Int) ≤ ((s.buf.length / bs : Nat) : Int)
            - (if s.buf.length % bs = 0 then 1 else 0) := not_lt.mp hB
        have hSmod : s.buf.length % bs ≠ 0 := by
          intro hz
          rw [if_pos hz] at hble
          omega
        rw [if_neg hSmod] at hble
        have hsame : s.buf.length / bs = off / bs := by omega
        rw [padFile_same bs false s s.buf.length off hsame]
        rw [bwChunk_merge_fst bs s (off / bs) (off % bs) data s.buf.length _ hA hB,
          bwChunk_merge_snd bs s (off / bs) (off % bs) data s.buf.length _ hA hB]
        have hprod : s.buf.length / bs * bs = off / bs * bs := by rw [hsame]
        have hq1 : (cacheRead bs s (off / bs * bs) bs).1
            = (memRead s.buf (off / bs * bs) bs).take bs := cacheRead_fst bs s _ _ hcoh
        have hqlen : (cacheRead bs s (off / bs * bs) bs).1.length
            = s.buf.length % bs := by
          rw [hq1, List.length_take, memRead_length]
          omega
        have hdlen : (spliceAt (padZeros (cacheRead bs s (off / bs * bs) bs).1
            (max (cacheRead bs s (off / bs * bs) bs).1.length
              (off % bs + min (bs - off % bs) data.length)))
            (off % bs) (data.take (min (bs - off % bs) data.length))).length
            = max (cacheRead bs s (off / bs * bs) bs).1.length
              (off % bs + min (bs - off % bs) data.length) := by
          rw [spliceAt_length]
          · rw [padZeros_length]
          · rw [padZeros_length, htake]
            omega
        have hqbuf := cacheRead_buf bs s (off / bs * bs) bs
        have hqcoh := cacheRead_coherent bs s (off / bs * bs) bs hcoh
        apply finishLem
        · apply cacheWrite_coherent
          · rw [hdlen]
            omega
          · left
            rw [hqbuf, hdlen]
            omega
        · rw [cacheWrite_buf, memWrite_length, hqbuf, hdlen]
          omega
        · rw [cacheWrite_buf, memWrite_length, hqbuf, hdlen]
          omega
        · intro i h1 h2
          have hge : off / bs * bs ≤ i := by omega
          rw [cacheWrite_buf, hqbuf,
            byteAt_memWrite_mid _ _ _ _ hge (by rw [hdlen]; omega),
            byteAt_spliceAt_lt _ _ _ _ (by rw [padZeros_length]; omega) (by omega),
            byteAt_padZeros_ge _ _ _ (by rw [hqlen]; omega)]

/-- Claim C5: with _allowHoles false, after a BlockFileIO::write of non-empty
data at an offset off beyond the current size S, every byte of the former gap
[S, off) subsequently reads back as 0 through BlockFileIO::read (the gap is
padded with zero-filled blocks by padFile, and the first written block zero
fills the remainder, before the write data is placed). -/
theorem c5_hole_zeros (bs : Nat) (hbs : 1 < bs) (s : BState) (hcoh : Coherent bs s)
    (off : Nat) (data : List Nat) (hdata : data ≠ []) (hoff : s.buf.length < off)
    (i : Nat) (hlo : s.buf.length ≤ i) (hhi : i < off) :
    (bread bs (bwrite bs false s off data hbs) i 1 (by omega)).1 = [0] := by
  obtain ⟨hc, hlen, hz⟩ := bwrite_gap bs hbs s hcoh off data hdata hoff
  rw [bread_single bs (by omega) _ hc i (by omega), hz i hlo hhi]

/-- Witness for C5: a 2-byte file extended by a write of one byte at offset
6 with block size 4; the gap byte at offset 3 reads back as 0. -/
theorem c5_hole_zeros_witness :
    1 < 4
    ∧ Coherent 4 (BState.mk [9, 9] 0 [])
    ∧ ([7] : List Nat) ≠ []
    ∧ (BState.mk [9, 9] 0 []).buf.length < 6
    ∧ (BState.mk [9, 9] 0 []).buf.length ≤ 3
    ∧ 3 < 6
    ∧ (bread 4 (bwrite 4 false (BState.mk [9, 9] 0 []) 6 [7] (by decide)) 3 1
        (by decide)).1 = [0] :=
  ⟨by decide, fun h => absurd rfl h, by decide, by decide, by decide, by decide,
    c5_hole_zeros 4 (by decide) (BState.mk [9, 9] 0 []) (fun h => absurd rfl h) 6 [7]
      (by decide) (by decide) 3 (by decide) (by decide)⟩

end EncfsProof
